import Mathlib

/-
Verification development for the zipline evaluation/data-serving core.

Shallow embedding of:
  * zipline/data/us_equity_loader.py   (Block, USEquityHistoryLoader)
  * zipline/pipeline/filters/filter.py (NumExprFilter masking, PercentileFilter)
  * zipline/pipeline/loaders/utils.py  (previous_event_frame)

Dates and calendar positions are modelled as naturals, prices/ratios as
rationals.  Python exceptions (KeyError from `Index.get_loc`, IndexError,
StopIteration) are modelled with `Except Unit` / `Option`.  Python dict
assignment `d[k] = v` keeps the original insertion position of an existing
key and replaces its value; `assocAssign` below mirrors that.
-/

set_option autoImplicit false

namespace Zipline

/-- Shallow embedding of `zipline.lib.adjustment.Float64Multiply` (constructed
positionally in the loader as `Float64Multiply(first_row, last_row, first_col,
last_col, value)`); it scales the closed rectangle
`[first_row, last_row] x [first_col, last_col]` of a 2-D array by `value`. -/
structure Float64Multiply where
  first_row : Nat
  last_row : Nat
  first_col : Nat
  last_col : Nat
  value : Rat
deriving DecidableEq, Repr

/-- Adjustments dict: row offset -> list of adjustments, as an insertion
ordered association list (the shape of a Python dict). -/
abbrev AdjMap := List (Nat × List Float64Multiply)

/-- Python dict lookup `d.get(k)`. -/
def assocLookup {α β : Type} [DecidableEq α] (k : α) : List (α × β) → Option β
  | [] => none
  | (k', v') :: rest => if k' = k then some v' else assocLookup k rest

/-- Python dict assignment `d[k] = v`: replace in place if the key exists,
append otherwise. -/
def assocAssign {α β : Type} [DecidableEq α] (l : List (α × β)) (k : α) (v : β) :
    List (α × β) :=
  match l with
  | [] => [(k, v)]
  | (k', v') :: rest =>
      if k' = k then (k', v) :: rest else (k', v') :: assocAssign rest k v

/-- The `field` argument of `_get_adjustments_in_range`: the loader's own
`history`/`_ensure_block` take a field name string, but `_ensure_block` passes
the `USEquityPricing` column object (`col = getattr(USEquityPricing, field)`)
down to `_get_adjustments_in_range`.  A column object never equals the string
`'volume'`, so the two kinds of argument must be distinguished. -/
inductive FieldArg where
  | str (s : String)
  | col (colName : String)
deriving DecidableEq, Repr

/-- Python `field == 'volume'` for a `FieldArg` (a column object is never
equal to a string). -/
def fieldEqVolume : FieldArg → Bool
  | .str s => s == "volume"
  | .col _ => false

/-- Model of `pandas.Index.get_loc`: position of a date in the index, raising
`KeyError` (modelled as `.error ()`) when absent. -/
def getLoc (days : List Nat) (dt : Nat) : Except Unit Nat :=
  match days with
  | [] => .error ()
  | d :: rest =>
      if d = dt then .ok 0
      else
        match getLoc rest dt with
        | .ok i => .ok (i + 1)
        | .error u => .error u

/-- Model of the `SQLiteAdjustmentReader` collaborator: per-sid event lists
`(event_date, ratio_or_amount)` for the three kinds used by the loader. -/
structure AdjustmentReader where
  mergers : Nat → List (Nat × Rat)
  dividends : Nat → List (Nat × Rat)
  splits : Nat → List (Nat × Rat)

/-- The mergers loop of `USEquityHistoryLoader._get_adjustments_in_range`:
for each merger with `start < dt <= end`, assign
`adjs[max(get_loc(dt) - 1, 0)] = [Float64Multiply(0, end_loc, 0, 0, ratio)]`. -/
def mergerLoop (days : List Nat) (start stop : Nat) :
    AdjMap → List (Nat × Rat) → Except Unit AdjMap
  | adjs, [] => .ok adjs
  | adjs, m :: rest =>
      if start < m.1 ∧ m.1 ≤ stop then
        match getLoc days m.1 with
        | .error u => .error u
        | .ok loc =>
            mergerLoop days start stop
              (assocAssign adjs (max (loc - 1) 0)
                [⟨0, max (loc - 1) 0, 0, 0, m.2⟩]) rest
      else
        mergerLoop days start stop adjs rest

/-- The dividends loop of `_get_adjustments_in_range`: keyed at `get_loc(dt)`
itself (no `- 1`). -/
def divLoop (days : List Nat) (start stop : Nat) :
    AdjMap → List (Nat × Rat) → Except Unit AdjMap
  | adjs, [] => .ok adjs
  | adjs, d :: rest =>
      if start < d.1 ∧ d.1 ≤ stop then
        match getLoc days d.1 with
        | .error u => .error u
        | .ok loc =>
            divLoop days start stop
              (assocAssign adjs loc [⟨0, loc, 0, 0, d.2⟩]) rest
      else
        divLoop days start stop adjs rest

/-- The splits loop of `_get_adjustments_in_range`: ratio is `s[1] / 1.0` for
the volume field and `s[1]` otherwise; keyed at `max(get_loc(dt) - 1, 0)`. -/
def splitLoop (days : List Nat) (start stop : Nat) (field : FieldArg) :
    AdjMap → List (Nat × Rat) → Except Unit AdjMap
  | adjs, [] => .ok adjs
  | adjs, s :: rest =>
      let ratio := if fieldEqVolume field then s.2 / 1 else s.2
      if start < s.1 ∧ s.1 ≤ stop then
        match getLoc days s.1 with
        | .error u => .error u
        | .ok loc =>
            splitLoop days start stop field
              (assocAssign adjs (max (loc - 1) 0)
                [⟨0, max (loc - 1) 0, 0, 0, ratio⟩]) rest
      else
        splitLoop days start stop field adjs rest

/-- Shallow embedding of `USEquityHistoryLoader._get_adjustments_in_range`:
mergers and dividends are processed only when `field != 'volume'` (the
dividends loop is additionally guarded by the same redundant test, as in the
source), splits always; `start = days[0]`, `end = days[-1]`. -/
def getAdjustmentsInRange (rdr : AdjustmentReader) (sid : Nat)
    (days : List Nat) (field : FieldArg) : Except Unit AdjMap :=
  match days with
  | [] => .error ()
  | d0 :: rest =>
      let start := d0
      let stop := List.getLastD rest d0
      let preSplit : Except Unit AdjMap :=
        if fieldEqVolume field = false then
          match mergerLoop days start stop [] (rdr.mergers sid) with
          | .error u => .error u
          | .ok am =>
              if fieldEqVolume field = false then
                divLoop days start stop am (rdr.dividends sid)
              else
                .ok am
        else
          .ok []
      match preSplit with
      | .error u => .error u
      | .ok a1 => splitLoop days start stop field a1 (rdr.splits sid)

/-- Modelled from the spec: `zipline.lib._float64window.AdjustedArrayWindow`
(and its int64 twin) are compiled Cython modules whose source is not among
the repository's Python files.  Per the spec's data model, a Window holds an
array, pending adjustments keyed by row offset, an anchor (current end-row
index, only ever increasing) and a window length. -/
structure AdjustedArrayWindow where
  data : List (List Rat)
  adjustments : AdjMap
  anchor : Nat
  window_length : Nat
deriving DecidableEq, Repr

/-- Application of one `Float64Multiply` to a 2-D array: every cell in the
closed rectangle `[first_row, last_row] x [first_col, last_col]` is scaled by
`value`, in place. -/
def applyAdj (adj : Float64Multiply) (data : List (List Rat)) :
    List (List Rat) :=
  data.mapIdx fun i row =>
    if adj.first_row ≤ i ∧ i ≤ adj.last_row then
      row.mapIdx fun j x =>
        if adj.first_col ≤ j ∧ j ≤ adj.last_col then x * adj.value else x
    else row

/-- Apply a list of adjustments in insertion order. -/
def applyAdjList (adjsList : List Float64Multiply) (data : List (List Rat)) :
    List (List Rat) :=
  adjsList.foldl (fun d a => applyAdj a d) data

/-- Modelled from the spec: one `next()` / `advance()` step of the
`AdjustedArrayWindow`.  It moves the anchor forward by one row, applies the
adjustments keyed at the new anchor to the in-flight array, and yields the
trailing `window_length`-row slice ending at the new anchor; advancing past
the end of the backing array is an error (`StopIteration`), modelled as
`none`. -/
def windowAdvance (w : AdjustedArrayWindow) :
    Option (List (List Rat) × AdjustedArrayWindow) :=
  let a' := w.anchor + 1
  if a' < w.data.length then
    let data' := applyAdjList ((assocLookup a' w.adjustments).getD []) w.data
    let buf := (data'.take (a' + 1)).drop (a' + 1 - w.window_length)
    some (buf, ⟨data', w.adjustments, a', w.window_length⟩)
  else
    none

/-- Iterated `windowAdvance`, tracking the most recently yielded buffer.
`Block.get` runs `while self.window.anchor < anchor: self.current =
next(self.window)`; since each advance increases the anchor by exactly one,
the loop body runs exactly `max(anchor - self.window.anchor, 0)` times, which
is the step count this function is called with. -/
def windowAdvanceN : Nat → List (List Rat) → AdjustedArrayWindow →
    Option (List (List Rat) × AdjustedArrayWindow)
  | 0, cur, w => some (cur, w)
  | n + 1, _, w =>
      match windowAdvance w with
      | none => none
      | some (buf, w') => windowAdvanceN n buf w'

/-- Advance a window as far as it will go (fuelled by the array length),
returning the last yielded buffer and the final window; used to express
"after fully advancing the window". -/
def windowFullAdvance : Nat → List (List Rat) → AdjustedArrayWindow →
    List (List Rat) × AdjustedArrayWindow
  | 0, cur, w => (cur, w)
  | n + 1, cur, w =>
      match windowAdvance w with
      | none => (cur, w)
      | some (buf, w') => windowFullAdvance n buf w'

/-- Shallow embedding of `us_equity_loader.Block`: a window plus the buffer
most recently yielded by it (`self.current`) and the calendar positions
`[cal_start, cal_end]` the block covers. -/
structure Block where
  window : AdjustedArrayWindow
  current : List (List Rat)
  cal_start : Nat
  cal_end : Nat
deriving DecidableEq, Repr

/-- `Block.__init__`: stores the window and bounds and draws the first buffer
with `self.current = next(window)` (which raises, i.e. `none`, on an
exhausted window). -/
def mkBlock (w : AdjustedArrayWindow) (cal_start cal_end : Nat) :
    Option Block :=
  (windowAdvance w).map fun bw => ⟨bw.2, bw.1, cal_start, cal_end⟩

/-- `Block.get(end_ix)`: advance the window while its anchor is below
`end_ix - cal_start`, then return column 0 of the current buffer.  The block
is mutated in place in Python; the model returns the updated block. -/
def blockGet (b : Block) (end_ix : Nat) : Option (List Rat × Block) :=
  let target : Int := (end_ix : Int) - (b.cal_start : Int)
  let steps : Nat := (target - (b.window.anchor : Int)).toNat
  (windowAdvanceN steps b.current b.window).map fun cw =>
    (cw.1.map fun row => row.getD 0 0, ⟨cw.2, cw.1, b.cal_start, b.cal_end⟩)

/-- Python `float -> int64` cast (`array.astype('int64')`): truncation toward
zero. -/
def astypeInt64 (q : Rat) : Rat :=
  if 0 ≤ q then ((⌊q⌋ : Int) : Rat) else ((⌈q⌉ : Int) : Rat)

/-- Shallow embedding of `USEquityHistoryLoader`: calendar of trading dates,
the raw-data reader's `load_raw_arrays` restricted to one column and one
asset (`raw column start_date end_date asset`), the optional adjustments
reader, and the `(asset, field, window_size) -> Block` cache. -/
structure USEquityHistoryLoader where
  calendar : List Nat
  raw : FieldArg → Nat → Nat → Nat → List (List Rat)
  adjReader : Option AdjustmentReader
  cache : List ((Nat × String × Nat) × Block)

/-- The rebuild branch of `USEquityHistoryLoader._ensure_block`: prefetch 40
sessions past `end_ix` (bounded by the calendar's last position), load the
raw array over `[start, prefetch_end]`, compute adjustments over
`cal[start_ix:prefetch_end_ix]` (passing the *column object* as the field),
cast to int64 for volume, build a fresh window and block, and replace the
cache entry. -/
def buildBlock (L : USEquityHistoryLoader) (asset start stop : Nat)
    (size start_ix end_ix : Nat) (field : String) :
    Except Unit (Block × USEquityHistoryLoader) :=
  let cal := L.calendar
  let prefetch_end_ix := min (end_ix + 40) (cal.length - 1)
  let prefetch_end := cal.getD prefetch_end_ix 0
  let array := L.raw (.col field) start prefetch_end asset
  let days := (cal.drop start_ix).take (prefetch_end_ix - start_ix)
  let adjsE : Except Unit AdjMap :=
    match L.adjReader with
    | some rdr => getAdjustmentsInRange rdr asset days (.col field)
    | none => .ok []
  match adjsE with
  | .error u => .error u
  | .ok adjs =>
      let array2 :=
        if field == "volume" then array.map (fun r => r.map astypeInt64)
        else array
      match mkBlock ⟨array2, adjs, 0, size⟩ start_ix prefetch_end_ix with
      | some b =>
          .ok (b, { L with cache := assocAssign L.cache (asset, field, size) b })
      | none => .error ()

/-- `USEquityHistoryLoader._ensure_block`: reuse the cached block when the
entry exists and `start_ix >= block.cal_start and end_ix <= block.cal_end`;
otherwise rebuild via `buildBlock`. -/
def ensureBlock (L : USEquityHistoryLoader) (asset start stop : Nat)
    (size start_ix end_ix : Nat) (field : String) :
    Except Unit (Block × USEquityHistoryLoader) :=
  match assocLookup (asset, field, size) L.cache with
  | some b =>
      if start_ix ≥ b.cal_start ∧ end_ix ≤ b.cal_end then .ok (b, L)
      else buildBlock L asset start stop size start_ix end_ix field
  | none => buildBlock L asset start stop size start_ix end_ix field

/-- `USEquityHistoryLoader.history`: resolve `start`/`end` to calendar
positions, ensure a block, and return `block.get(end_ix)`.  `Block.get`
mutates the cached block in place in Python, so the model writes the advanced
block back into the cache entry. -/
def history (L : USEquityHistoryLoader) (asset start stop size : Nat)
    (field : String) : Except Unit (List Rat × USEquityHistoryLoader) :=
  match getLoc L.calendar start with
  | .error u => .error u
  | .ok start_ix =>
      match getLoc L.calendar stop with
      | .error u => .error u
      | .ok end_ix =>
          match ensureBlock L asset start stop size start_ix end_ix field with
          | .error u => .error u
          | .ok (b, L1) =>
              match blockGet b end_ix with
              | some rb =>
                  .ok (rb.1,
                    { L1 with
                        cache :=
                          assocAssign L1.cache (asset, field, size) rb.2 })
              | none => .error ()

/-- Shallow embedding of `NumExprFilter._compute` from
`zipline/pipeline/filters/filter.py`: the boolean result of the underlying
numexpr expression (`NumericalExpression._compute`, whose source lives
outside these files and is therefore left as an arbitrary boolean matrix) is
combined elementwise with the mask via `& mask`.  Matrices are lists of rows;
positions beyond a matrix's extent read as `false`. -/
def numExprFilterCompute (superResult mask : List (List Bool)) :
    List (List Bool) :=
  List.zipWith (fun r m => List.zipWith (fun a b => a && b) r m)
    superResult mask

/-- Errors raised at Term construction; `zipline.errors.BadPercentileBounds`
carries the offending bounds. -/
inductive PipelineError where
  | badPercentileBounds (min_percentile max_percentile : Rat)
  | unsupportedDataType
deriving DecidableEq, Repr

/-- The declared parameters of a `PercentileFilter` term (the input factor
and mask play no role in the bounds check). -/
structure PercentileFilterTerm where
  min_percentile : Rat
  max_percentile : Rat
deriving DecidableEq, Repr

/-- Shallow embedding of `PercentileFilter._validate`: raise
`BadPercentileBounds` unless `0.0 <= min_percentile < max_percentile <=
100.0`; afterwards delegate to `Filter._validate`, whose dtype check always
passes for a `PercentileFilter` (its class dtype is `bool`). -/
def percentileValidate (t : PercentileFilterTerm) : Except PipelineError Unit :=
  if ¬(0 ≤ t.min_percentile ∧ t.min_percentile < t.max_percentile ∧
        t.max_percentile ≤ 100) then
    .error (.badPercentileBounds t.min_percentile t.max_percentile)
  else
    .ok ()

/-- Modelled from the spec: Term construction (`zipline/pipeline/term.py`,
not among these sources) runs the `_validate` chain synchronously inside the
constructor, so constructing a `PercentileFilter` succeeds exactly when
`_validate` does, and any validation error aborts construction. -/
def percentileFilterNew (minp maxp : Rat) :
    Except PipelineError PercentileFilterTerm :=
  (percentileValidate ⟨minp, maxp⟩).map fun _ => ⟨minp, maxp⟩

/-- One event for `previous_event_frame`: the row of the sid's frame is the
knowledge date (the frame's index), paired with the event date and the value
of the `previous_return_field` column. -/
structure EventRow where
  knowledge_date : Nat
  event_date : Nat
  val : Rat
deriving DecidableEq, Repr

/-- Model of `numpy.searchsorted(dates, d)` (side `'left'`) on a sorted index:
the first position whose entry is `>= d`, or `length` if there is none. -/
def searchsorted (dates : List Nat) (d : Nat) : Nat :=
  dates.findIdx (fun x => d ≤ x)

/-- Model of the numpy fancy assignment `out[idx, col] = v` for a single
index: writing at a position `>= len(out)` is an `IndexError`. -/
def setAtE (l : List (Option Rat)) (i : Nat) (v : Rat) :
    Except Unit (List (Option Rat)) :=
  if i < l.length then .ok (l.set i (some v)) else .error ()

/-- Model of `pandas.DataFrame.ffill` on one column: a missing cell (`none`,
standing for NaN/NaT) takes the most recent earlier non-missing value. -/
def ffillCol (carry : Option Rat) : List (Option Rat) → List (Option Rat)
  | [] => []
  | x :: xs =>
      match x with
      | some v => some v :: ffillCol (some v) xs
      | none => carry :: ffillCol carry xs

/-- The vectorized numpy assignment
`out[date_index.searchsorted(index_dates), col] = values` writes event by
event in array order (so a later event wins at a duplicated target row). -/
def assignLoop : List (Option Rat) → List EventRow → List Nat →
    Except Unit (List (Option Rat))
  | out, [], _ => .ok out
  | out, e :: es, dates =>
      match setAtE out
          (searchsorted dates (max e.knowledge_date e.event_date)) e.val with
      | .error u => .error u
      | .ok out2 => assignLoop out2 es dates

/-- Shallow embedding of one column (one sid) of
`zipline.pipeline.loaders.utils.previous_event_frame`: keep the events whose
event date is on or before the last index date, write each kept event's value
at `searchsorted(date_index, max(knowledge_date, event_date))` into a column
initialised to the missing value, then forward-fill and replace the still
missing cells by `missing_value`.  Cells are `Option`-valued while being
built, `none` standing for the NaN/NaT missing sentinel that `ffill`
recognises. -/
def previousEventCol (events : List EventRow) (date_index : List Nat)
    (missing : Rat) : Except Unit (List Rat) :=
  match date_index.getLast? with
  | none => .error ()
  | some d_n =>
      let filtered := events.filter (fun e => e.event_date ≤ d_n)
      match assignLoop (List.replicate date_index.length (none : Option Rat))
          filtered date_index with
      | .error u => .error u
      | .ok out =>
          .ok ((ffillCol none out).map (fun o => o.getD missing))

/-- `previous_event_frame` itself: one column per sid, columns independent. -/
def previousEventFrame (events_by_sid : List (Nat × List EventRow))
    (date_index : List Nat) (missing : Rat) :
    Except Unit (List (Nat × List Rat)) :=
  events_by_sid.mapM fun se =>
    (previousEventCol se.2 date_index missing).map fun c => (se.1, c)

/-! Helper lemmas. -/

theorem assocLookup_assign {α β : Type} [DecidableEq α]
    (l : List (α × β)) (k k2 : α) (v : β) :
    assocLookup k2 (assocAssign l k v) =
      if k2 = k then some v else assocLookup k2 l := by
  induction l with
  | nil =>
      by_cases h : k2 = k
      · simp [assocAssign, assocLookup, h]
      · simp [assocAssign, assocLookup, h, Ne.symm h]
  | cons hd tl ih =>
      obtain ⟨k1, v1⟩ := hd
      by_cases h1 : k1 = k <;> by_cases h2 : k1 = k2 <;>
        by_cases h3 : k2 = k <;>
        simp_all [assocAssign, assocLookup]

theorem assocAssign_self {α β : Type} [DecidableEq α]
    (l : List (α × β)) (k : α) (v : β) (h : assocLookup k l = some v) :
    assocAssign l k v = l := by
  induction l with
  | nil => simp [assocLookup] at h
  | cons hd tl ih =>
      obtain ⟨k1, v1⟩ := hd
      by_cases h1 : k1 = k
      · simp [assocLookup, h1] at h
        simp [assocAssign, h1, h]
      · simp only [assocLookup, if_neg h1] at h
        simp [assocAssign, h1, ih h]

theorem getLoc_lt_length (days : List Nat) (dt i : Nat)
    (h : getLoc days dt = .ok i) : i < days.length := by
  induction days generalizing i with
  | nil => simp [getLoc] at h
  | cons d rest ih =>
      unfold getLoc at h
      by_cases hd : d = dt
      · simp only [if_pos hd] at h
        cases h
        simp
      · simp only [if_neg hd] at h
        cases hr : getLoc rest dt with
        | ok j =>
            rw [hr] at h
            cases h
            simpa using ih j hr
        | error u => rw [hr] at h; cases h

theorem applyAdj_length (a : Float64Multiply) (d : List (List Rat)) :
    (applyAdj a d).length = d.length := by
  simp [applyAdj]

theorem applyAdjList_length (as : List Float64Multiply) (d : List (List Rat)) :
    (applyAdjList as d).length = d.length := by
  induction as generalizing d with
  | nil => rfl
  | cons a as ih => simp [applyAdjList, List.foldl_cons] at ih ⊢
                    rw [ih, applyAdj_length]

theorem windowAdvance_some (w : AdjustedArrayWindow)
    (buf : List (List Rat)) (w' : AdjustedArrayWindow)
    (h : windowAdvance w = some (buf, w')) :
    w'.anchor = w.anchor + 1 ∧ w'.window_length = w.window_length ∧
      w'.data.length = w.data.length ∧ w'.adjustments = w.adjustments := by
  unfold windowAdvance at h
  by_cases hl : w.anchor + 1 < w.data.length
  · simp only [if_pos hl] at h
    cases h
    refine ⟨rfl, rfl, ?_, rfl⟩
    simp [applyAdjList_length]
  · simp [if_neg hl] at h

theorem windowAdvanceN_some (n : Nat) (cur : List (List Rat))
    (w : AdjustedArrayWindow) (cur' : List (List Rat))
    (w' : AdjustedArrayWindow)
    (h : windowAdvanceN n cur w = some (cur', w')) :
    w'.anchor = w.anchor + n ∧ w'.window_length = w.window_length := by
  induction n generalizing cur w with
  | zero =>
      unfold windowAdvanceN at h
      cases h
      exact ⟨rfl, rfl⟩
  | succ n ih =>
      unfold windowAdvanceN at h
      cases ha : windowAdvance w with
      | none => rw [ha] at h; cases h
      | some bw =>
          rw [ha] at h
          obtain ⟨h1, h2, -, -⟩ := windowAdvance_some w bw.1 bw.2 (by rw [ha])
          obtain ⟨h3, h4⟩ := ih bw.1 bw.2 h
          constructor
          · rw [h3, h1]; omega
          · rw [h4, h2]

theorem blockGet_of_anchor_le (b : Block) (e : Nat)
    (h : (e : Int) - (b.cal_start : Int) ≤ (b.window.anchor : Int)) :
    blockGet b e = some (b.current.map fun row => row.getD 0 0, b) := by
  simp only [blockGet]
  have h0 : ((e : Int) - (b.cal_start : Int) - (b.window.anchor : Int)).toNat
      = 0 := by omega
  rw [h0]
  rfl

theorem blockGet_some (b : Block) (e : Nat) (r : List Rat) (b' : Block)
    (h : blockGet b e = some (r, b')) :
    b'.cal_start = b.cal_start ∧ b'.cal_end = b.cal_end ∧
      b.window.anchor ≤ b'.window.anchor ∧
      (e : Int) - (b'.cal_start : Int) ≤ (b'.window.anchor : Int) ∧
      r = b'.current.map (fun row => row.getD 0 0) := by
  simp only [blockGet] at h
  cases han : windowAdvanceN
      (((e : Int) - (b.cal_start : Int) - (b.window.anchor : Int)).toNat)
      b.current b.window with
  | none => rw [han] at h; cases h
  | some cw =>
      rw [han] at h
      obtain ⟨ha, -⟩ := windowAdvanceN_some _ _ _ cw.1 cw.2 han
      cases h
      refine ⟨rfl, rfl, ?_, ?_, rfl⟩
      · simp only [ha]; omega
      · simp only [ha]; omega

theorem buildBlock_ok (L : USEquityHistoryLoader)
    (asset start stop size s_ix e_ix : Nat) (field : String)
    (b : Block) (L' : USEquityHistoryLoader)
    (h : buildBlock L asset start stop size s_ix e_ix field = .ok (b, L')) :
    b.cal_start = s_ix ∧
      b.cal_end = min (e_ix + 40) (L.calendar.length - 1) ∧
      L'.calendar = L.calendar ∧ L'.raw = L.raw ∧
      L'.adjReader = L.adjReader ∧
      L'.cache = assocAssign L.cache (asset, field, size) b ∧
      b.window.window_length = size ∧
      b.window.data.length =
        (L.raw (.col field) start
          (L.calendar.getD (min (e_ix + 40) (L.calendar.length - 1)) 0)
          asset).length := by
  simp only [buildBlock] at h
  cases hadj : (match L.adjReader with
    | some rdr => getAdjustmentsInRange rdr asset
        ((L.calendar.drop s_ix).take
          (min (e_ix + 40) (L.calendar.length - 1) - s_ix)) (.col field)
    | none => .ok []) with
  | error u => rw [hadj] at h; cases h
  | ok adjs =>
      rw [hadj] at h
      dsimp only at h
      set array2 :=
        (if field == "volume" then
          (L.raw (.col field) start
            (L.calendar.getD (min (e_ix + 40) (L.calendar.length - 1)) 0)
            asset).map (fun r => r.map astypeInt64)
        else
          L.raw (.col field) start
            (L.calendar.getD (min (e_ix + 40) (L.calendar.length - 1)) 0)
            asset) with harr
      cases hmk : mkBlock ⟨array2, adjs, 0, size⟩ s_ix
          (min (e_ix + 40) (L.calendar.length - 1)) with
      | none => rw [hmk] at h; cases h
      | some b0 =>
          rw [hmk] at h
          dsimp only at h
          cases h
          unfold mkBlock at hmk
          cases hw : windowAdvance ⟨array2, adjs, 0, size⟩ with
          | none => rw [hw] at hmk; cases hmk
          | some bw =>
              rw [hw] at hmk
              obtain ⟨-, hwl, hdl, -⟩ := windowAdvance_some _ bw.1 bw.2 hw
              cases hmk
              refine ⟨rfl, rfl, rfl, rfl, rfl, rfl, hwl, ?_⟩
              rw [hdl]
              by_cases hv : field == "volume" <;> simp [harr, hv]

/-- Row-wise masking: a position where the mask row reads `false` reads
`false` in the conjunction row. -/
theorem zipWith_and_row (r m : List Bool) (j : Nat)
    (h : m.getD j false = false) :
    (List.zipWith (fun a b => a && b) r m).getD j false = false := by
  induction r generalizing m j with
  | nil => simp
  | cons a as ih =>
      cases m with
      | nil => simp
      | cons b bs =>
          cases j with
          | zero => simp_all
          | succ j =>
              simp only [List.zipWith_cons_cons, List.getD_cons_succ] at h ⊢
              exact ih bs j h

/-- C9: for every `NumExprFilter` (hence every filter built by the binary and
unary operator factories, all of which construct `NumExprFilter`s) and every
boolean output the underlying numexpr expression could produce, the computed
output of `NumExprFilter._compute` is `false` at every position where the
supplied mask is `false`: masked-out assets can never pass the filter. -/
theorem c9_numexprfilter_masked_positions_false
    (superResult mask : List (List Bool)) (i j : Nat)
    (h : (mask.getD i []).getD j false = false) :
    ((numExprFilterCompute superResult mask).getD i []).getD j false =
      false := by
  induction superResult generalizing mask i with
  | nil => simp [numExprFilterCompute]
  | cons r rs ih =>
      cases mask with
      | nil => simp [numExprFilterCompute]
      | cons m ms =>
          cases i with
          | zero =>
              simp only [List.getD_cons_zero] at h
              simpa [numExprFilterCompute] using zipWith_and_row r m j h
          | succ i =>
              simp only [List.getD_cons_succ] at h ⊢
              simpa [numExprFilterCompute] using ih ms i h

/-- Witness for C9 at a concrete input. -/
theorem c9_witness :
    ((numExprFilterCompute [[true, true]] [[true, false]]).getD 0 []).getD 1
      false = false :=
  c9_numexprfilter_masked_positions_false [[true, true]] [[true, false]] 0 1
    (by decide)

/-- C3: `PercentileFilter` construction succeeds for every pair with
`0 <= min_percentile < max_percentile <= 100` and raises
`BadPercentileBounds` for every other pair; the check runs inside
construction (`_validate` is invoked by the Term constructor), never at
compute time. -/
theorem c3_percentile_bounds_checked_at_construction (minp maxp : Rat) :
    ((0 ≤ minp ∧ minp < maxp ∧ maxp ≤ 100) →
      percentileFilterNew minp maxp = .ok ⟨minp, maxp⟩) ∧
    (¬(0 ≤ minp ∧ minp < maxp ∧ maxp ≤ 100) →
      percentileFilterNew minp maxp =
        .error (.badPercentileBounds minp maxp)) := by
  constructor
  · intro h
    simp [percentileFilterNew, percentileValidate, h, Except.map]
  · intro h
    simp [percentileFilterNew, percentileValidate, h, Except.map]

/-- Witness for C3: one valid and one invalid pair of bounds. -/
theorem c3_witness :
    percentileFilterNew 10 20 = .ok ⟨10, 20⟩ ∧
    percentileFilterNew 30 20 = .error (.badPercentileBounds 30 20) :=
  ⟨(c3_percentile_bounds_checked_at_construction 10 20).1 (by norm_num),
   (c3_percentile_bounds_checked_at_construction 30 20).2 (by norm_num)⟩

/-- C10: `Block.get` never moves the window backward: the anchor is monotone
non-decreasing across calls, and a call whose `end_ix - cal_start` is at or
below the current anchor performs zero advances, returning column 0 of the
current buffer with the block unchanged — the data of the already-reached
later anchor, not the data for the requested position. -/
theorem c10_block_get_never_rewinds (b : Block) (e : Nat) :
    (∀ r b', blockGet b e = some (r, b') →
      b.window.anchor ≤ b'.window.anchor) ∧
    ((e : Int) - (b.cal_start : Int) ≤ (b.window.anchor : Int) →
      blockGet b e = some (b.current.map (fun row => row.getD 0 0), b)) := by
  constructor
  · intro r b' h
    exact (blockGet_some b e r b' h).2.2.1
  · exact blockGet_of_anchor_le b e

/-- Concrete block for the C10 witness: the window has already been advanced
to anchor 2 (calendar positions 5..7). -/
def c10Block : Block :=
  ⟨⟨[[1], [2], [3]], [], 2, 2⟩, [[2], [3]], 5, 7⟩

/-- Witness for C10: requesting the earlier position 6 (row offset 1, below
the anchor 2) silently returns the buffer of anchor 2 unchanged. -/
theorem c10_witness :
    c10Block.window.anchor ≤ c10Block.window.anchor ∧
    blockGet c10Block 6 = some ([2, 3], c10Block) :=
  ⟨(c10_block_get_never_rewinds c10Block 6).1 [2, 3] c10Block
      ((c10_block_get_never_rewinds c10Block 6).2 (by decide)),
   (c10_block_get_never_rewinds c10Block 6).2 (by decide)⟩

/-- The C1/C2 split scenario, evaluated symbolically in the ratio: a single
split of ratio `r` with event date 2 over the four-day range `[0, 1, 2, 3]`
is keyed at row `max(2 - 1, 0) = 1` and spans rows `0..1`. -/
theorem c1_scenario_adjs (r : Rat) :
    getAdjustmentsInRange ⟨fun _ => [], fun _ => [], fun _ => [(2, r)]⟩ 1
      [0, 1, 2, 3] (.str "close") = .ok [(1, [⟨0, 1, 0, 0, r⟩])] := rfl

/-- Fully advancing a four-row window of constant value `v` under the
adjustment produced by the C1 scenario multiplies rows 0 and 1 by `r` and
leaves rows 2 and 3 raw. -/
theorem c1_scenario_window (v r : Rat) :
    (windowFullAdvance 4 []
      ⟨[[v], [v], [v], [v]], [(1, [⟨0, 1, 0, 0, r⟩])], 0, 4⟩).1 =
        [[v * r], [v * r], [v], [v]] := rfl

/-- The adjustments reader of the C1 scenario: a single 2-for-1 split (ratio
1/2) whose event date is calendar day 2, i.e. row 2 of the four-day range. -/
def c1Reader : AdjustmentReader :=
  ⟨fun _ => [], fun _ => [], fun _ => [(2, (1 : Rat) / 2)]⟩

/-- Counterexample for C1.  The loader does key the multiply-by-1/2
adjustment at row `max(2 - 1, 0) = 1`, but that adjustment spans rows 0..1
(`Float64Multiply(0, end_loc, 0, 0, ratio)`), so after fully advancing the
window over raw closes `[10, 10, 10, 10]` the buffer reads `[5, 5, 10, 10]`:
rows 0 and 1 are multiplied and rows 2 and 3 are raw — not `[10, 5, 5, 5]`
as the claim states. -/
theorem c1_counterexample :
    getAdjustmentsInRange c1Reader 1 [0, 1, 2, 3] (.str "close") =
      .ok [(1, [⟨0, 1, 0, 0, (1 : Rat) / 2⟩])] ∧
    (windowFullAdvance 4 []
        ⟨[[10], [10], [10], [10]], [(1, [⟨0, 1, 0, 0, (1 : Rat) / 2⟩])],
          0, 4⟩).1.map (fun row => row.getD 0 0) = [5, 5, 10, 10] ∧
    ¬((windowFullAdvance 4 []
        ⟨[[10], [10], [10], [10]], [(1, [⟨0, 1, 0, 0, (1 : Rat) / 2⟩])],
          0, 4⟩).1.map (fun row => row.getD 0 0) = [10, 5, 5, 5]) := by
  refine ⟨c1_scenario_adjs ((1 : Rat) / 2), ?_, ?_⟩
  · rw [c1_scenario_window 10 ((1 : Rat) / 2)]
    norm_num
  · rw [c1_scenario_window 10 ((1 : Rat) / 2)]
    norm_num

/-- C1 (amended): the loader schedules a multiply-by-`r` adjustment keyed at
row `max(i - 1, 0)` spanning rows `0..max(i - 1, 0)`, so after fully
advancing the window every row at or before the effective trigger row
reflects the multiplier `r` while every row after it remains unmultiplied;
concretely, for raw closes `[v, v, v, v]` and a split of ratio `r` with
event row 2, rows 0 and 1 read `v * r` and rows 2 and 3 read `v`. -/
theorem c1_split_rows_at_or_before_trigger_multiplied (v r : Rat) :
    getAdjustmentsInRange ⟨fun _ => [], fun _ => [], fun _ => [(2, r)]⟩ 1
        [0, 1, 2, 3] (.str "close") = .ok [(1, [⟨0, 1, 0, 0, r⟩])] ∧
    (windowFullAdvance 4 []
        ⟨[[v], [v], [v], [v]], [(1, [⟨0, 1, 0, 0, r⟩])], 0, 4⟩).1 =
      [[v * r], [v * r], [v], [v]] :=
  ⟨c1_scenario_adjs r, c1_scenario_window v r⟩

/-- The adjustments reader of the C2 scenario: a merger (ratio 3) and a
split (ratio 1/2) on the same event date, so both resolve to the same row
offset `max(2 - 1, 0) = 1`. -/
def c2Reader : AdjustmentReader :=
  ⟨fun _ => [(2, 3)], fun _ => [], fun _ => [(2, (1 : Rat) / 2)]⟩

/-- Counterexample for C2: when a merger and a split resolve to the same row
offset, `_get_adjustments_in_range` does not accumulate them — each
`adjs[end_loc] = [...]` assignment replaces the previous singleton list, so
only the split (processed last) survives, not the insertion-ordered pair. -/
theorem c2_counterexample :
    getAdjustmentsInRange c2Reader 1 [0, 1, 2, 3] (.str "close") =
      .ok [(1, [⟨0, 1, 0, 0, (1 : Rat) / 2⟩])] ∧
    assocLookup 1 ([(1, [⟨0, 1, 0, 0, (1 : Rat) / 2⟩])] : AdjMap) ≠
      some [⟨0, 1, 0, 0, (3 : Rat)⟩, ⟨0, 1, 0, 0, (1 : Rat) / 2⟩] := by
  constructor
  · rfl
  · simp [assocLookup]

/-- Every entry reachable after the mergers loop is either inherited from the
starting dict or the singleton adjustment of some in-range merger. -/
theorem mergerLoop_lookup (days : List Nat) (start stop : Nat)
    (ms : List (Nat × Rat)) :
    ∀ adjs D, mergerLoop days start stop adjs ms = .ok D →
    ∀ k v, assocLookup k D = some v →
    assocLookup k adjs = some v ∨
    ∃ m ∈ ms, start < m.1 ∧ m.1 ≤ stop ∧
      ∃ loc, getLoc days m.1 = .ok loc ∧ k = max (loc - 1) 0 ∧
        v = [⟨0, max (loc - 1) 0, 0, 0, m.2⟩] := by
  induction ms with
  | nil =>
      intro adjs D h k v hv
      unfold mergerLoop at h
      cases h
      exact Or.inl hv
  | cons m rest ih =>
      intro adjs D h k v hv
      unfold mergerLoop at h
      by_cases hin : start < m.1 ∧ m.1 ≤ stop
      · rw [if_pos hin] at h
        cases hl : getLoc days m.1 with
        | error u => rw [hl] at h; cases h
        | ok loc =>
            rw [hl] at h
            rcases ih _ _ h k v hv with hleft | ⟨m', hm', h1, h2, hrest⟩
            · rw [assocLookup_assign] at hleft
              by_cases hk : k = max (loc - 1) 0
              · rw [if_pos hk] at hleft
                right
                exact ⟨m, List.mem_cons_self m rest, hin.1, hin.2, loc, hl,
                  hk, (Option.some.inj hleft).symm⟩
              · rw [if_neg hk] at hleft
                exact Or.inl hleft
            · exact Or.inr ⟨m', List.mem_cons_of_mem m hm', h1, h2, hrest⟩
      · rw [if_neg hin] at h
        rcases ih _ _ h k v hv with hleft | ⟨m', hm', hrest⟩
        · exact Or.inl hleft
        · exact Or.inr ⟨m', List.mem_cons_of_mem m hm', hrest⟩

/-- Every entry reachable after the dividends loop is either inherited from
the starting dict or the singleton adjustment of some in-range dividend,
keyed at the event row itself. -/
theorem divLoop_lookup (days : List Nat) (start stop : Nat)
    (ds : List (Nat × Rat)) :
    ∀ adjs D, divLoop days start stop adjs ds = .ok D →
    ∀ k v, assocLookup k D = some v →
    assocLookup k adjs = some v ∨
    ∃ d ∈ ds, start < d.1 ∧ d.1 ≤ stop ∧
      getLoc days d.1 = .ok k ∧ v = [⟨0, k, 0, 0, d.2⟩] := by
  induction ds with
  | nil =>
      intro adjs D h k v hv
      unfold divLoop at h
      cases h
      exact Or.inl hv
  | cons d rest ih =>
      intro adjs D h k v hv
      unfold divLoop at h
      by_cases hin : start < d.1 ∧ d.1 ≤ stop
      · rw [if_pos hin] at h
        cases hl : getLoc days d.1 with
        | error u => rw [hl] at h; cases h
        | ok loc =>
            rw [hl] at h
            rcases ih _ _ h k v hv with hleft | ⟨d', hd', h1, h2, hrest⟩
            · rw [assocLookup_assign] at hleft
              by_cases hk : k = loc
              · rw [if_pos hk] at hleft
                right
                refine ⟨d, List.mem_cons_self d rest, hin.1, hin.2, ?_, ?_⟩
                · rw [hk]; exact hl
                · rw [← (Option.some.inj hleft), hk]
              · rw [if_neg hk] at hleft
                exact Or.inl hleft
            · exact Or.inr ⟨d', List.mem_cons_of_mem d hd', h1, h2, hrest⟩
      · rw [if_neg hin] at h
        rcases ih _ _ h k v hv with hleft | ⟨d', hd', hrest⟩
        · exact Or.inl hleft
        · exact Or.inr ⟨d', List.mem_cons_of_mem d hd', hrest⟩

/-- Every entry reachable after the splits loop is either inherited from the
starting dict or the singleton adjustment of some in-range split, with the
field-dependent ratio. -/
theorem splitLoop_lookup (days : List Nat) (start stop : Nat)
    (field : FieldArg) (sps : List (Nat × Rat)) :
    ∀ adjs D, splitLoop days start stop field adjs sps = .ok D →
    ∀ k v, assocLookup k D = some v →
    assocLookup k adjs = some v ∨
    ∃ sp ∈ sps, start < sp.1 ∧ sp.1 ≤ stop ∧
      ∃ loc, getLoc days sp.1 = .ok loc ∧ k = max (loc - 1) 0 ∧
        v = [⟨0, max (loc - 1) 0, 0, 0,
          if fieldEqVolume field then sp.2 / 1 else sp.2⟩] := by
  induction sps with
  | nil =>
      intro adjs D h k v hv
      unfold splitLoop at h
      cases h
      exact Or.inl hv
  | cons sp rest ih =>
      intro adjs D h k v hv
      unfold splitLoop at h
      by_cases hin : start < sp.1 ∧ sp.1 ≤ stop
      · rw [if_pos hin] at h
        cases hl : getLoc days sp.1 with
        | error u => rw [hl] at h; cases h
        | ok loc =>
            rw [hl] at h
            rcases ih _ _ h k v hv with hleft | ⟨sp', hsp', h1, h2, hrest⟩
            · rw [assocLookup_assign] at hleft
              by_cases hk : k = max (loc - 1) 0
              · rw [if_pos hk] at hleft
                right
                exact ⟨sp, List.mem_cons_self sp rest, hin.1, hin.2, loc, hl,
                  hk, (Option.some.inj hleft).symm⟩
              · rw [if_neg hk] at hleft
                exact Or.inl hleft
            · exact Or.inr ⟨sp', List.mem_cons_of_mem sp hsp', h1, h2, hrest⟩
      · rw [if_neg hin] at h
        rcases ih _ _ h k v hv with hleft | ⟨sp', hsp', hrest⟩
        · exact Or.inl hleft
        · exact Or.inr ⟨sp', List.mem_cons_of_mem sp hsp', hrest⟩

/-- C2 (amended): every row key in the dict returned by
`_get_adjustments_in_range` maps to a singleton adjustment list — multiple
events resolving to the same row do not accumulate, because each
`adjs[end_loc] = [...]` assignment replaces the previous list; only the
last-processed event for a row (processing order: mergers, dividends,
splits) survives. -/
theorem c2_singleton_adjustment_per_row (rdr : AdjustmentReader) (sid : Nat)
    (days : List Nat) (field : FieldArg) (D : AdjMap)
    (h : getAdjustmentsInRange rdr sid days field = .ok D)
    (k : Nat) (v : List Float64Multiply) (hv : assocLookup k D = some v) :
    ∃ a, v = [a] := by
  cases days with
  | nil => cases h
  | cons d0 rest =>
      simp only [getAdjustmentsInRange] at h
      cases hf : fieldEqVolume field with
      | true =>
          rw [hf] at h
          simp only [Bool.true_eq_false, if_false] at h
          rcases splitLoop_lookup _ _ _ _ _ _ _ h k v hv with hleft | hright
          · cases hleft
          · obtain ⟨sp, -, -, -, loc, -, -, hvv⟩ := hright
            exact ⟨_, hvv⟩
      | false =>
          rw [hf] at h
          simp only [eq_self_iff_true, if_true] at h
          cases hm : mergerLoop (d0 :: rest) d0 (List.getLastD rest d0) []
              (rdr.mergers sid) with
          | error u => rw [hm] at h; cases h
          | ok am =>
              rw [hm] at h
              dsimp only at h
              cases hd : divLoop (d0 :: rest) d0 (List.getLastD rest d0) am
                  (rdr.dividends sid) with
              | error u => rw [hd] at h; cases h
              | ok a1 =>
                  rw [hd] at h
                  dsimp only at h
                  rcases splitLoop_lookup _ _ _ _ _ _ _ h k v hv with
                    h1 | hright
                  · rcases divLoop_lookup _ _ _ _ _ _ hd k v h1 with
                      h2 | hright
                    · rcases mergerLoop_lookup _ _ _ _ _ _ hm k v h2 with
                        h3 | hright
                      · cases h3
                      · obtain ⟨m, -, -, -, loc, -, -, hvv⟩ := hright
                        exact ⟨_, hvv⟩
                    · obtain ⟨d, -, -, -, -, hvv⟩ := hright
                      exact ⟨_, hvv⟩
                  · obtain ⟨sp, -, -, -, loc, -, -, hvv⟩ := hright
                    exact ⟨_, hvv⟩

/-- Witness for C2's amended claim at the merger-plus-split collision
scenario. -/
theorem c2_witness :
    ∃ a, ([⟨0, 1, 0, 0, (1 : Rat) / 2⟩] : List Float64Multiply) = [a] :=
  c2_singleton_adjustment_per_row c2Reader 1 [0, 1, 2, 3] (.str "close")
    [(1, [⟨0, 1, 0, 0, (1 : Rat) / 2⟩])] rfl 1 [⟨0, 1, 0, 0, (1 : Rat) / 2⟩]
    rfl

/-- The splits loop computes identical adjustments for the volume field and
for any non-volume field: the volume branch divides the ratio by `1.0`,
which is a no-op. -/
theorem splitLoop_volume_eq (days : List Nat) (start stop : Nat)
    (f : FieldArg) (hf : fieldEqVolume f = false) (sps : List (Nat × Rat)) :
    ∀ adjs, splitLoop days start stop (.str "volume") adjs sps =
      splitLoop days start stop f adjs sps := by
  induction sps with
  | nil => intro adjs; rfl
  | cons sp rest ih =>
      intro adjs
      have hv : fieldEqVolume (FieldArg.str "volume") = true := rfl
      by_cases hin : start < sp.1 ∧ sp.1 ≤ stop
      · simp only [splitLoop, hv, hf, if_pos hin, if_true, if_false,
          div_one]
        cases hl : getLoc days sp.1 with
        | error u => simp only [hl]
        | ok loc =>
            simp only [hl]
            exact ih _
      · simp only [splitLoop, hv, hf, if_neg hin, if_true, if_false,
          div_one]
        exact ih _

/-- C6: for the volume field, `_get_adjustments_in_range` returns only split
adjustments — mergers and dividends are skipped entirely, so the result
coincides with running the same reader restricted to splits under a price
field (the volume branch's division by `1.0` is a no-op, so volume and price
receive the identical ratio) — and every returned entry is keyed at
`max(event_row - 1, 0)` with the raw split ratio as multiplier, confined to
column 0. -/
theorem c6_volume_only_splits_ratio_unchanged (rdr : AdjustmentReader)
    (sid : Nat) (days : List Nat) :
    getAdjustmentsInRange rdr sid days (.str "volume") =
      getAdjustmentsInRange ⟨fun _ => [], fun _ => [], rdr.splits⟩ sid days
        (.str "close") ∧
    (∀ D k v,
      getAdjustmentsInRange rdr sid days (.str "volume") = .ok D →
      assocLookup k D = some v →
      ∃ sp ∈ rdr.splits sid, days.headD 0 < sp.1 ∧ sp.1 ≤ days.getLastD 0 ∧
        ∃ loc, getLoc days sp.1 = .ok loc ∧ k = max (loc - 1) 0 ∧
          v = [⟨0, max (loc - 1) 0, 0, 0, sp.2⟩]) := by
  have hvol : fieldEqVolume (FieldArg.str "volume") = true := rfl
  have hclose : fieldEqVolume (FieldArg.str "close") = false := rfl
  constructor
  · cases days with
    | nil => rfl
    | cons d0 rest =>
        simp only [getAdjustmentsInRange, hvol, hclose, Bool.true_eq_false,
          if_false, eq_self_iff_true, if_true]
        simp only [mergerLoop, divLoop]
        exact splitLoop_volume_eq (d0 :: rest) d0 (List.getLastD rest d0)
          (.str "close") hclose (rdr.splits sid) []
  · intro D k v hD hv
    cases days with
    | nil => cases hD
    | cons d0 rest =>
        simp only [getAdjustmentsInRange, hvol, Bool.true_eq_false,
          if_false] at hD
        rcases splitLoop_lookup _ _ _ _ _ _ _ hD k v hv with hleft | hright
        · cases hleft
        · obtain ⟨sp, hmem, h1, h2, loc, hloc, hk, hvv⟩ := hright
          refine ⟨sp, hmem, ?_, ?_, loc, hloc, hk, ?_⟩
          · simpa using h1
          · rw [List.getLastD_cons]
            exact h2
          · simpa [hvol, div_one] using hvv

/-- The adjustments reader for the C6 witness: one merger and one split. -/
def c6Reader : AdjustmentReader :=
  ⟨fun _ => [(1, 7)], fun _ => [], fun _ => [(2, (3 : Rat))]⟩

/-- Witness for C6: the merger is ignored under the volume field and the
split entry carries its raw ratio at row `max(2 - 1, 0) = 1`. -/
theorem c6_witness :
    getAdjustmentsInRange c6Reader 1 [0, 1, 2, 3] (.str "volume") =
      getAdjustmentsInRange ⟨fun _ => [], fun _ => [], c6Reader.splits⟩ 1
        [0, 1, 2, 3] (.str "close") ∧
    ∃ sp ∈ c6Reader.splits 1,
      [0, 1, 2, 3].headD 0 < sp.1 ∧ sp.1 ≤ [0, 1, 2, 3].getLastD 0 ∧
      ∃ loc, getLoc [0, 1, 2, 3] sp.1 = .ok loc ∧ 1 = max (loc - 1) 0 ∧
        ([⟨0, 1, 0, 0, (3 : Rat) / 1⟩] : List Float64Multiply) =
          [⟨0, max (loc - 1) 0, 0, 0, sp.2⟩] :=
  ⟨(c6_volume_only_splits_ratio_unchanged c6Reader 1 [0, 1, 2, 3]).1,
   (c6_volume_only_splits_ratio_unchanged c6Reader 1 [0, 1, 2, 3]).2
     [(1, [⟨0, 1, 0, 0, (3 : Rat) / 1⟩])] 1 [⟨0, 1, 0, 0, (3 : Rat) / 1⟩]
     rfl rfl⟩

/-- Mergers outside `(start, stop]` contribute nothing: dropping them up
front leaves the mergers loop's result unchanged. -/
theorem mergerLoop_filter (days : List Nat) (start stop : Nat)
    (ms : List (Nat × Rat)) :
    ∀ adjs, mergerLoop days start stop adjs
      (ms.filter (fun e => decide (start < e.1 ∧ e.1 ≤ stop))) =
      mergerLoop days start stop adjs ms := by
  induction ms with
  | nil => intro adjs; rfl
  | cons m rest ih =>
      intro adjs
      by_cases hin : start < m.1 ∧ m.1 ≤ stop
      · have hb : (fun (e : Nat × Rat) => decide (start < e.1 ∧ e.1 ≤ stop))
            m = true := decide_eq_true hin
        rw [List.filter_cons, if_pos hb]
        simp only [mergerLoop, if_pos hin]
        cases hl : getLoc days m.1 with
        | error u => simp only [hl]
        | ok loc => simp only [hl]; exact ih _
      · have hb : ¬((fun (e : Nat × Rat) =>
            decide (start < e.1 ∧ e.1 ≤ stop)) m = true) := by
          simpa using hin
        rw [List.filter_cons, if_neg hb]
        simp only [mergerLoop, if_neg hin]
        exact ih adjs

/-- Dividends outside `(start, stop]` contribute nothing. -/
theorem divLoop_filter (days : List Nat) (start stop : Nat)
    (ds : List (Nat × Rat)) :
    ∀ adjs, divLoop days start stop adjs
      (ds.filter (fun e => decide (start < e.1 ∧ e.1 ≤ stop))) =
      divLoop days start stop adjs ds := by
  induction ds with
  | nil => intro adjs; rfl
  | cons d rest ih =>
      intro adjs
      by_cases hin : start < d.1 ∧ d.1 ≤ stop
      · have hb : (fun (e : Nat × Rat) => decide (start < e.1 ∧ e.1 ≤ stop))
            d = true := decide_eq_true hin
        rw [List.filter_cons, if_pos hb]
        simp only [divLoop, if_pos hin]
        cases hl : getLoc days d.1 with
        | error u => simp only [hl]
        | ok loc => simp only [hl]; exact ih _
      · have hb : ¬((fun (e : Nat × Rat) =>
            decide (start < e.1 ∧ e.1 ≤ stop)) d = true) := by
          simpa using hin
        rw [List.filter_cons, if_neg hb]
        simp only [divLoop, if_neg hin]
        exact ih adjs

/-- Splits outside `(start, stop]` contribute nothing. -/
theorem splitLoop_filter (days : List Nat) (start stop : Nat)
    (field : FieldArg) (sps : List (Nat × Rat)) :
    ∀ adjs, splitLoop days start stop field adjs
      (sps.filter (fun e => decide (start < e.1 ∧ e.1 ≤ stop))) =
      splitLoop days start stop field adjs sps := by
  induction sps with
  | nil => intro adjs; rfl
  | cons sp rest ih =>
      intro adjs
      by_cases hin : start < sp.1 ∧ sp.1 ≤ stop
      · have hb : (fun (e : Nat × Rat) => decide (start < e.1 ∧ e.1 ≤ stop))
            sp = true := decide_eq_true hin
        rw [List.filter_cons, if_pos hb]
        simp only [splitLoop, if_pos hin]
        cases hl : getLoc days sp.1 with
        | error u => simp only [hl]
        | ok loc => simp only [hl]; exact ih _
      · have hb : ¬((fun (e : Nat × Rat) =>
            decide (start < e.1 ∧ e.1 ≤ stop)) sp = true) := by
          simpa using hin
        rw [List.filter_cons, if_neg hb]
        simp only [splitLoop, if_neg hin]
        exact ih adjs

/-- C7: for a non-volume field, events on or before the range start or after
the range end produce no adjustment (pre-filtering every event list to the
in-range events leaves the result unchanged), and each in-range merger or
dividend produces a Multiply confined to column 0 with the event's ratio as
multiplier — keyed at `max(event_row - 1, 0)` for mergers and at `event_row`
for dividends. -/
theorem c7_nonvolume_merger_dividend_scheduling (f : String)
    (hf : f ≠ "volume") (rdr : AdjustmentReader) (sid : Nat)
    (days : List Nat) :
    getAdjustmentsInRange rdr sid days (.str f) =
      getAdjustmentsInRange
        ⟨fun s => (rdr.mergers s).filter
            (fun e => decide (days.headD 0 < e.1 ∧ e.1 ≤ days.getLastD 0)),
          fun s => (rdr.dividends s).filter
            (fun e => decide (days.headD 0 < e.1 ∧ e.1 ≤ days.getLastD 0)),
          fun s => (rdr.splits s).filter
            (fun e => decide (days.headD 0 < e.1 ∧ e.1 ≤ days.getLastD 0))⟩
        sid days (.str f) ∧
    (∀ m : Nat × Rat, days.headD 0 < m.1 → m.1 ≤ days.getLastD 0 →
      ∀ loc, getLoc days m.1 = .ok loc →
        getAdjustmentsInRange ⟨fun _ => [m], fun _ => [], fun _ => []⟩ sid
          days (.str f) =
          .ok [(max (loc - 1) 0, [⟨0, max (loc - 1) 0, 0, 0, m.2⟩])]) ∧
    (∀ d : Nat × Rat, days.headD 0 < d.1 → d.1 ≤ days.getLastD 0 →
      ∀ loc, getLoc days d.1 = .ok loc →
        getAdjustmentsInRange ⟨fun _ => [], fun _ => [d], fun _ => []⟩ sid
          days (.str f) = .ok [(loc, [⟨0, loc, 0, 0, d.2⟩])]) := by
  have hfb : fieldEqVolume (.str f) = false := by
    simp [fieldEqVolume, hf]
  refine ⟨?_, ?_, ?_⟩
  · cases days with
    | nil => rfl
    | cons d0 rest =>
        simp only [getAdjustmentsInRange, hfb, eq_self_iff_true, if_true,
          List.headD_cons, List.getLastD_cons]
        rw [mergerLoop_filter (d0 :: rest) d0 (List.getLastD rest d0)
          (rdr.mergers sid) []]
        simp only [divLoop_filter, splitLoop_filter]
  · intro m h1 h2 loc hloc
    cases days with
    | nil => simp [getLoc] at hloc
    | cons d0 rest =>
        have h1' : d0 < m.1 := by simpa using h1
        have h2' : m.1 ≤ List.getLastD rest d0 := by
          rw [List.getLastD_cons] at h2; exact h2
        simp only [getAdjustmentsInRange, hfb, eq_self_iff_true, if_true]
        have hm : mergerLoop (d0 :: rest) d0 (List.getLastD rest d0) [] [m] =
            .ok [(max (loc - 1) 0, [⟨0, max (loc - 1) 0, 0, 0, m.2⟩])] := by
          unfold mergerLoop
          rw [if_pos ⟨h1', h2'⟩, hloc]
          rfl
        rw [hm]
        rfl
  · intro d h1 h2 loc hloc
    cases days with
    | nil => simp [getLoc] at hloc
    | cons d0 rest =>
        have h1' : d0 < d.1 := by simpa using h1
        have h2' : d.1 ≤ List.getLastD rest d0 := by
          rw [List.getLastD_cons] at h2; exact h2
        simp only [getAdjustmentsInRange, hfb, eq_self_iff_true, if_true]
        have hd : divLoop (d0 :: rest) d0 (List.getLastD rest d0) [] [d] =
            .ok [(loc, [⟨0, loc, 0, 0, d.2⟩])] := by
          unfold divLoop
          rw [if_pos ⟨h1', h2'⟩, hloc]
          rfl
        simp only [mergerLoop]
        rw [hd]
        rfl

/-- The adjustments reader for the C7 witness. -/
def c7Reader : AdjustmentReader :=
  ⟨fun _ => [(2, (5 : Rat)), (9, (11 : Rat))], fun _ => [(3, (7 : Rat))],
    fun _ => []⟩

/-- Witness for C7: the out-of-range merger at date 9 drops out, the
in-range merger at date 2 is keyed at row 1 and the dividend at date 3 at
row 3, each with the event's ratio, confined to column 0. -/
theorem c7_witness :
    getAdjustmentsInRange c7Reader 1 [0, 1, 2, 3] (.str "close") =
      getAdjustmentsInRange
        ⟨fun s => (c7Reader.mergers s).filter
            (fun e => decide ([0, 1, 2, 3].headD 0 < e.1 ∧
              e.1 ≤ [0, 1, 2, 3].getLastD 0)),
          fun s => (c7Reader.dividends s).filter
            (fun e => decide ([0, 1, 2, 3].headD 0 < e.1 ∧
              e.1 ≤ [0, 1, 2, 3].getLastD 0)),
          fun s => (c7Reader.splits s).filter
            (fun e => decide ([0, 1, 2, 3].headD 0 < e.1 ∧
              e.1 ≤ [0, 1, 2, 3].getLastD 0))⟩ 1 [0, 1, 2, 3]
        (.str "close") ∧
    getAdjustmentsInRange ⟨fun _ => [(2, (5 : Rat))], fun _ => [],
        fun _ => []⟩ 1 [0, 1, 2, 3] (.str "close") =
      .ok [(1, [⟨0, 1, 0, 0, (5 : Rat)⟩])] ∧
    getAdjustmentsInRange ⟨fun _ => [], fun _ => [(3, (7 : Rat))],
        fun _ => []⟩ 1 [0, 1, 2, 3] (.str "close") =
      .ok [(3, [⟨0, 3, 0, 0, (7 : Rat)⟩])] := by
  have h := c7_nonvolume_merger_dividend_scheduling "close" (by decide)
    c7Reader 1 [0, 1, 2, 3]
  refine ⟨h.1, ?_, ?_⟩
  · have h2 := h.2.1 (2, (5 : Rat)) (by decide) (by decide) 2 rfl
    simpa using h2
  · have h3 := h.2.2 (3, (7 : Rat)) (by decide) (by decide) 3 rfl
    simpa using h3

/-- C4: the cached block keyed by `(asset, field, window_size)` is reused
exactly when the entry exists and `start_ix >= cal_start` and
`end_ix <= cal_end`; otherwise a fresh block is built — fetching the raw
array from the requested start out to a prefetch end 40 trading sessions
past the requested end, bounded by the calendar's last position — and it
replaces the old cache entry for that key. -/
theorem c4_block_cache_reuse_and_rebuild (L : USEquityHistoryLoader)
    (asset start stop size s_ix e_ix : Nat) (field : String) :
    (∀ b, assocLookup (asset, field, size) L.cache = some b →
      s_ix ≥ b.cal_start → e_ix ≤ b.cal_end →
      ensureBlock L asset start stop size s_ix e_ix field = .ok (b, L)) ∧
    (∀ b L',
      (∀ b0, assocLookup (asset, field, size) L.cache = some b0 →
        ¬(s_ix ≥ b0.cal_start ∧ e_ix ≤ b0.cal_end)) →
      ensureBlock L asset start stop size s_ix e_ix field = .ok (b, L') →
      b.cal_start = s_ix ∧
      b.cal_end = min (e_ix + 40) (L.calendar.length - 1) ∧
      L'.cache = assocAssign L.cache (asset, field, size) b ∧
      b.window.window_length = size ∧
      b.window.data.length =
        (L.raw (.col field) start
          (L.calendar.getD (min (e_ix + 40) (L.calendar.length - 1)) 0)
          asset).length) := by
  constructor
  · intro b hb h1 h2
    unfold ensureBlock
    rw [hb]
    dsimp only
    rw [if_pos ⟨h1, h2⟩]
  · intro b L' hmiss h
    unfold ensureBlock at h
    cases hb : assocLookup (asset, field, size) L.cache with
    | none =>
        rw [hb] at h
        obtain ⟨g1, g2, -, -, -, g3, g4, g5⟩ :=
          buildBlock_ok L asset start stop size s_ix e_ix field b L' h
        exact ⟨g1, g2, g3, g4, g5⟩
    | some b0 =>
        rw [hb] at h
        dsimp only at h
        rw [if_neg (hmiss b0 hb)] at h
        obtain ⟨g1, g2, -, -, -, g3, g4, g5⟩ :=
          buildBlock_ok L asset start stop size s_ix e_ix field b L' h
        exact ⟨g1, g2, g3, g4, g5⟩

/-- The loader for the C4/C5 witnesses: a six-day calendar, a constant raw
array, no adjustments reader, and an empty cache. -/
def c4Loader : USEquityHistoryLoader :=
  ⟨[0, 1, 2, 3, 4, 5],
   fun _ _ _ _ => [[10], [11], [12], [13], [14], [15]],
   none, []⟩

/-- The block that `_ensure_block` builds for the C4 witness request:
prefetch covers positions 0..5 and the window was advanced once by
`Block.__init__`. -/
def c4Block : Block :=
  ⟨⟨[[10], [11], [12], [13], [14], [15]], [], 1, 3⟩, [[10], [11]], 0, 5⟩

/-- The loader state after the C4 witness rebuild: the cache holds the fresh
block under its key. -/
def c4Loader2 : USEquityHistoryLoader :=
  { c4Loader with cache := [((7, "close", 3), c4Block)] }

/-- Witness for C4: with an empty cache the block is rebuilt with
`cal_start = 0`, `cal_end = min(2 + 40, 5) = 5` and stored; immediately
afterwards the same request is served from the cache unchanged. -/
theorem c4_witness :
    (c4Block.cal_start = 0 ∧
      c4Block.cal_end = min (2 + 40) (c4Loader.calendar.length - 1) ∧
      c4Loader2.cache = assocAssign c4Loader.cache (7, "close", 3) c4Block ∧
      c4Block.window.window_length = 3 ∧
      c4Block.window.data.length =
        (c4Loader.raw (.col "close") 0
          (c4Loader.calendar.getD (min (2 + 40) (c4Loader.calendar.length - 1))
            0) 7).length) ∧
    ensureBlock c4Loader2 7 0 2 3 0 2 "close" = .ok (c4Block, c4Loader2) :=
  ⟨(c4_block_cache_reuse_and_rebuild c4Loader 7 0 2 3 0 2 "close").2 c4Block
      c4Loader2
      (by intro b0 hb0; simp [assocLookup, c4Loader] at hb0)
      rfl,
   (c4_block_cache_reuse_and_rebuild c4Loader2 7 0 2 3 0 2 "close").1 c4Block
      rfl (by decide) (by decide)⟩

/-- Whatever `_ensure_block` returns, the loader's collaborators are
untouched and the returned block covers the requested positions. -/
theorem ensureBlock_ok_inv (L : USEquityHistoryLoader)
    (asset start stop size s_ix e_ix : Nat) (field : String)
    (b : Block) (LA : USEquityHistoryLoader)
    (h : ensureBlock L asset start stop size s_ix e_ix field = .ok (b, LA))
    (he : e_ix < L.calendar.length) :
    LA.calendar = L.calendar ∧ LA.raw = L.raw ∧ LA.adjReader = L.adjReader ∧
      b.cal_start ≤ s_ix ∧ e_ix ≤ b.cal_end := by
  unfold ensureBlock at h
  cases hb : assocLookup (asset, field, size) L.cache with
  | some b0 =>
      rw [hb] at h
      dsimp only at h
      by_cases hc : s_ix ≥ b0.cal_start ∧ e_ix ≤ b0.cal_end
      · rw [if_pos hc] at h
        simp only [Except.ok.injEq, Prod.mk.injEq] at h
        obtain ⟨rfl, rfl⟩ := h
        exact ⟨rfl, rfl, rfl, hc.1, hc.2⟩
      · rw [if_neg hc] at h
        obtain ⟨g1, g2, g3, g4, g5, -, -, -⟩ :=
          buildBlock_ok L asset start stop size s_ix e_ix field b LA h
        refine ⟨g3, g4, g5, ?_, ?_⟩
        · rw [g1]
        · rw [g2]
          omega
  | none =>
      rw [hb] at h
      obtain ⟨g1, g2, g3, g4, g5, -, -, -⟩ :=
        buildBlock_ok L asset start stop size s_ix e_ix field b LA h
      refine ⟨g3, g4, g5, ?_, ?_⟩
      · rw [g1]
      · rw [g2]
        omega

/-- C5: calling `history` twice in succession with identical arguments and
no intervening cache invalidation returns the identical result and leaves
the loader state fixed — the second call reuses the cached block (its bounds
cover the request) and performs zero window advances (the anchor already
sits at or past the requested position). -/
theorem c5_history_idempotent (L : USEquityHistoryLoader)
    (asset start stop size : Nat) (field : String) (r : List Rat)
    (L1 : USEquityHistoryLoader)
    (h : history L asset start stop size field = .ok (r, L1)) :
    history L1 asset start stop size field = .ok (r, L1) := by
  unfold history at h
  cases hs : getLoc L.calendar start with
  | error u => rw [hs] at h; cases h
  | ok s_ix =>
      rw [hs] at h
      dsimp only at h
      cases he : getLoc L.calendar stop with
      | error u => rw [he] at h; cases h
      | ok e_ix =>
          rw [he] at h
          dsimp only at h
          cases hen : ensureBlock L asset start stop size s_ix e_ix field with
          | error u => rw [hen] at h; cases h
          | ok bl =>
              rw [hen] at h
              obtain ⟨b, LA⟩ := bl
              dsimp only at h
              cases hbg : blockGet b e_ix with
              | none => rw [hbg] at h; cases h
              | some rb =>
                  rw [hbg] at h
                  obtain ⟨r0, b2⟩ := rb
                  dsimp only at h
                  simp only [Except.ok.injEq, Prod.mk.injEq] at h
                  obtain ⟨rfl, rfl⟩ := h
                  have hlen : e_ix < L.calendar.length :=
                    getLoc_lt_length _ _ _ he
                  obtain ⟨hcal, -, -, hbs, hbe⟩ :=
                    ensureBlock_ok_inv L asset start stop size s_ix e_ix
                      field b LA hen hlen
                  obtain ⟨hb2s, hb2e, -, htarget, hr0⟩ :=
                    blockGet_some b e_ix r0 b2 hbg
                  set LB : USEquityHistoryLoader :=
                    { LA with cache :=
                        assocAssign LA.cache (asset, field, size) b2 } with hLB
                  have hlook : assocLookup (asset, field, size) LB.cache =
                      some b2 := by
                    show assocLookup (asset, field, size)
                      (assocAssign LA.cache (asset, field, size) b2) = some b2
                    rw [assocLookup_assign]
                    simp
                  have hens2 : ensureBlock LB asset start stop size s_ix e_ix
                      field = .ok (b2, LB) := by
                    unfold ensureBlock
                    rw [hlook]
                    dsimp only
                    rw [if_pos ⟨by rw [hb2s]; exact hbs, by rw [hb2e]; exact hbe⟩]
                  have hget2 : blockGet b2 e_ix = some (r0, b2) := by
                    rw [hr0]
                    exact blockGet_of_anchor_le b2 e_ix htarget
                  have hcalB : LB.calendar = L.calendar := hcal
                  unfold history
                  rw [hcalB, hs]
                  dsimp only
                  rw [he]
                  dsimp only
                  rw [hens2]
                  dsimp only
                  rw [hget2]
                  dsimp only
                  rw [assocAssign_self _ _ _ hlook]

/-- The block cached after the first C5 witness call: anchored at row 2
(calendar position 2) with the trailing two-row buffer. -/
def c5Block : Block :=
  ⟨⟨[[10], [11], [12], [13], [14], [15]], [], 2, 2⟩, [[11], [12]], 0, 5⟩

/-- The loader state after the first C5 witness call. -/
def c5Loader1 : USEquityHistoryLoader :=
  { c4Loader with cache := [((1, "close", 2), c5Block)] }

/-- Witness for C5: a first `history` call from the empty cache computes
`[11, 12]`, and the repeated call returns the identical result and state. -/
theorem c5_witness :
    history c4Loader 1 0 2 2 "close" = .ok ([11, 12], c5Loader1) ∧
    history c5Loader1 1 0 2 2 "close" = .ok ([11, 12], c5Loader1) :=
  ⟨rfl,
   c5_history_idempotent c4Loader 1 0 2 2 "close" [11, 12] c5Loader1 rfl⟩

/-- Forward-filling an all-missing tail from a known value yields that value
everywhere. -/
theorem ffillCol_replicate_none (v : Rat) (q : Nat) :
    ffillCol (some v) (List.replicate q (none : Option Rat)) =
      List.replicate q (some v) := by
  induction q with
  | zero => rfl
  | succ q ih => simp [List.replicate_succ, ffillCol, ih]

/-- Forward-filling a column that is missing everywhere except a single
value at position `p` yields missing before `p` and the value from `p` on. -/
theorem ffillCol_single (n p : Nat) (v : Rat) (hp : p < n) :
    ffillCol none ((List.replicate n (none : Option Rat)).set p (some v)) =
      List.replicate p (none : Option Rat) ++
        List.replicate (n - p) (some v) := by
  induction n generalizing p with
  | zero => omega
  | succ n ih =>
      cases p with
      | zero =>
          simp only [List.replicate_succ, List.set_cons_zero, ffillCol]
          rw [ffillCol_replicate_none]
          simp [List.replicate_succ]
      | succ p =>
          simp only [List.replicate_succ, List.set_cons_succ, ffillCol,
            Nat.succ_sub_succ]
          rw [ih p (by omega)]
          rfl

/-- Reading the finalized all-`some` tail column. -/
theorem getD_map_replicate_some (b i : Nat) (v missing : Rat) :
    ((List.replicate b (some v)).map (fun o => o.getD missing)).getD i
      missing = if i < b then v else missing := by
  simp only [List.map_replicate]
  by_cases h : i < b <;>
    simp [List.getD_eq_getElem?_getD, List.getElem?_replicate, h]

/-- Reading the finalized column: missing before position `a`, the value on
`[a, a + b)`, missing past the end. -/
theorem getD_map_missing_append (a b i : Nat) (v missing : Rat) :
    ((List.replicate a (none : Option Rat) ++
        List.replicate b (some v)).map (fun o => o.getD missing)).getD i
      missing = if a ≤ i ∧ i < a + b then v else missing := by
  induction a generalizing i with
  | zero =>
      simp only [List.replicate, List.nil_append, getD_map_replicate_some,
        Nat.zero_add, Nat.zero_le, true_and]
  | succ a ih =>
      cases i with
      | zero =>
          simp [List.replicate_succ]
      | succ i =>
          simp only [List.replicate_succ, List.cons_append, List.map_cons,
            List.getD_cons_succ, ih i]
          have : (a + 1 ≤ i + 1 ∧ i + 1 < a + 1 + b) ↔
              (a ≤ i ∧ i < a + b) := by omega
          rw [if_congr this rfl rfl]

/-- On a sorted index, the leftmost position whose date is `>= d`
(`searchsorted`) is at or before `i` exactly when the date at `i` is
`>= d`. -/
theorem searchsorted_le_iff (dates : List Nat)
    (hs : List.Sorted (· ≤ ·) dates) (d i : Nat) (hi : i < dates.length)
    (hp : dates.findIdx (fun x => decide (d ≤ x)) < dates.length) :
    dates.findIdx (fun x => decide (d ≤ x)) ≤ i ↔ d ≤ dates.getD i 0 := by
  have hgetD : dates.getD i 0 = dates.get ⟨i, hi⟩ := by
    simp [List.getD_eq_getElem?_getD, List.getElem?_eq_getElem hi]
  constructor
  · intro hle
    have hpd : d ≤ dates.get ⟨dates.findIdx (fun x => decide (d ≤ x)), hp⟩ :=
      of_decide_eq_true (List.findIdx_getElem (w := hp))
    rcases Nat.lt_or_ge (dates.findIdx (fun x => decide (d ≤ x))) i with
      hlt | hge
    · have := hs.rel_get_of_lt
        (a := ⟨dates.findIdx (fun x => decide (d ≤ x)), hp⟩)
        (b := ⟨i, hi⟩) hlt
      rw [hgetD]
      omega
    · have hieq : i = dates.findIdx (fun x => decide (d ≤ x)) := by omega
      rw [hgetD]
      subst hieq
      exact hpd
  · intro hd
    by_contra hlt
    push_neg at hlt
    have := List.not_of_lt_findIdx hlt
    rw [decide_eq_false_iff_not] at this
    rw [hgetD] at hd
    exact this (by simpa using hd)

/-- A frame over a single sid is the sid paired with its column. -/
theorem previousEventFrame_single (sid : Nat) (es : List EventRow)
    (dates : List Nat) (missing : Rat) :
    previousEventFrame [(sid, es)] dates missing =
      (previousEventCol es dates missing).map (fun c => [(sid, c)]) := by
  cases hc : previousEventCol es dates missing with
  | error u =>
      simp [previousEventFrame, List.mapM, List.mapM.loop, hc,
        Except.map, Except.bind, Bind.bind, Except.pure, Pure.pure]
  | ok c =>
      simp [previousEventFrame, List.mapM, List.mapM.loop, hc,
        Except.map, Except.bind, Bind.bind, Except.pure, Pure.pure]

/-- C8: in `previous_event_frame` the effective as-of row of an event is the
later (maximum) of its knowledge date and its event date: the value first
appears at the first index row whose date is `>= max(knowledge_date,
event_date)` — in particular, for a knowledge date after its event date the
value appears starting at the knowledge date's row, not the event date's row
— and every cell before that row holds the caller-supplied missing value,
with the value forward-filled thereafter. -/
theorem c8_previous_event_asof_is_max_of_dates (sid kd ed : Nat)
    (v missing : Rat) (dates : List Nat)
    (hs : List.Sorted (· ≤ ·) dates) (hne : dates ≠ [])
    (hkd : kd ≤ dates.getLastD 0) (hed : ed ≤ dates.getLastD 0) :
    ∃ col, previousEventFrame [(sid, [⟨kd, ed, v⟩])] dates missing =
        .ok [(sid, col)] ∧
      ∀ i, i < dates.length →
        col.getD i missing =
          if max kd ed ≤ dates.getD i 0 then v else missing := by
  have hlast : dates.getLast? = some (dates.getLastD 0) := by
    cases hq : dates.getLast? with
    | none => exact absurd (List.getLast?_eq_none_iff.mp hq) hne
    | some dn =>
        rw [List.getLastD_eq_getLast?, hq]
        rfl
  have hmem : dates.getLastD 0 ∈ dates := by
    cases dates with
    | nil => exact absurd rfl hne
    | cons d0 rest =>
        rw [List.getLastD_cons]
        exact List.getLastD_mem_cons rest d0
  have hmax : max kd ed ≤ dates.getLastD 0 := by omega
  have hp : dates.findIdx (fun x => decide (max kd ed ≤ x)) <
      dates.length :=
    List.findIdx_lt_length_of_exists
      ⟨dates.getLastD 0, hmem, decide_eq_true hmax⟩
  have hcol : previousEventCol [⟨kd, ed, v⟩] dates missing =
      .ok ((ffillCol none
        ((List.replicate dates.length (none : Option Rat)).set
          (dates.findIdx (fun x => decide (max kd ed ≤ x))) (some v))).map
        (fun o => o.getD missing)) := by
    have hp2 : searchsorted dates (max kd ed) <
        (List.replicate dates.length (none : Option Rat)).length := by
      rw [List.length_replicate]
      exact hp
    unfold previousEventCol
    rw [hlast]
    dsimp only
    rw [List.filter_cons, if_pos (decide_eq_true hed)]
    unfold assignLoop
    unfold setAtE
    dsimp only
    rw [if_pos hp2]
    rfl
  refine ⟨(ffillCol none
      ((List.replicate dates.length (none : Option Rat)).set
        (dates.findIdx (fun x => decide (max kd ed ≤ x))) (some v))).map
      (fun o => o.getD missing), ?_, ?_⟩
  · rw [previousEventFrame_single, hcol]
    rfl
  · intro i hi
    rw [ffillCol_single dates.length
      (dates.findIdx (fun x => decide (max kd ed ≤ x))) v hp]
    rw [getD_map_missing_append]
    have hsum : dates.findIdx (fun x => decide (max kd ed ≤ x)) +
        (dates.length - dates.findIdx (fun x => decide (max kd ed ≤ x))) =
        dates.length := by omega
    rw [hsum]
    by_cases hpi : dates.findIdx (fun x => decide (max kd ed ≤ x)) ≤ i
    · rw [if_pos ⟨hpi, hi⟩,
        if_pos ((searchsorted_le_iff dates hs (max kd ed) i hi hp).mp hpi)]
    · rw [if_neg (fun hc => hpi hc.1),
        if_neg (fun hd => hpi
          ((searchsorted_le_iff dates hs (max kd ed) i hi hp).mpr hd))]

/-- Witness for C8: a knowledge date (3) after its event date (1) over the
index `[0, 1, 2, 3, 4]` makes the value appear at row 3 (the knowledge
date), with missing values before. -/
theorem c8_witness :
    ∃ col, previousEventFrame [(5, [⟨3, 1, (7 : Rat)⟩])] [0, 1, 2, 3, 4]
        (0 : Rat) = .ok [(5, col)] ∧
      ∀ i, i < [0, 1, 2, 3, 4].length →
        col.getD i 0 =
          if max 3 1 ≤ [0, 1, 2, 3, 4].getD i 0 then (7 : Rat) else 0 :=
  c8_previous_event_asof_is_max_of_dates 5 3 1 7 0 [0, 1, 2, 3, 4]
    (by decide) (by decide) (by decide) (by decide)

end Zipline
